import Mathlib

/-!
Verification of the n-gram demo repository: the frequency model (word
splitting, n-gram counting, prediction, greedy completion, context
enumeration) and the caller-side boundary code (submission filtering,
retry/timeout wrapper, ranked probability views, token colouring).

The frequency model itself lives in the backend service; the repository
snapshot under verification contains its React caller (`App.tsx`), the
deployment files and the README, so the model components are written here
from the specification's component contracts, while the boundary code is
translated from `App.tsx` directly.
-/

namespace LlmDemo

/-! ## Data model -/

abbrev Word := String

/-- A corpus: one word list per input sentence. -/
abbrev Corpus := List (List Word)

/-- Modelled from the spec: the Word Splitter (§4.1, backend `main.py` not in
the snapshot): split a sentence on runs of whitespace, keeping trailing
punctuation attached to the word. -/
def splitWords (s : String) : List Word :=
  (s.split (fun c => c.isWhitespace)).filter (fun w => w ≠ "")

def joinWords (ws : List Word) : String := String.intercalate " " ws

/-- The `n`-word window of `s` starting at index `i`. -/
def windowAt (s : List Word) (i n : Nat) : List Word := (s.drop i).take n

/-- Modelled from the spec: the N-Gram Table Builder (§4.2, backend `main.py`
not in the snapshot): the words observed immediately after each occurrence of
`ctx` as a full `n`-word window in sentence `s`. -/
def followersOfSentence (n : Nat) (ctx : List Word) (s : List Word) : List Word :=
  (List.range s.length).filterMap (fun i =>
    if windowAt s i n = ctx then s[i + n]? else none)

/-- All observed successors of `ctx` across the corpus, in scan order,
with multiplicity. -/
def nextWords (n : Nat) (corpus : Corpus) (ctx : List Word) : List Word :=
  corpus.flatMap (followersOfSentence n ctx)

/-- The table entry `NGramTable(n)[ctx][w]`: how often `w` follows `ctx`. -/
def countNext (n : Nat) (corpus : Corpus) (ctx : List Word) (w : Word) : Nat :=
  (nextWords n corpus ctx).count w

/-- Total successor count recorded for `ctx`. -/
def totalNext (n : Nat) (corpus : Corpus) (ctx : List Word) : Nat :=
  (nextWords n corpus ctx).length

/-- Modelled from the spec: the Predictor (§4.4, backend `main.py` not in the
snapshot): for each distinct observed successor, its empirical probability
`count / total`; the empty list when nothing was observed. -/
def predictDist (n : Nat) (corpus : Corpus) (ctx : List Word) : List (Word × ℚ) :=
  (nextWords n corpus ctx).dedup.map
    (fun w => (w, (countNext n corpus ctx w : ℚ) / (totalNext n corpus ctx : ℚ)))

/-! ## C1: the Predictor returns a proper probability distribution -/

theorem predictDist_map_snd (n : Nat) (corpus : Corpus) (ctx : List Word) :
    (predictDist n corpus ctx).map Prod.snd =
      (nextWords n corpus ctx).dedup.map
        (fun w => (countNext n corpus ctx w : ℚ) / (totalNext n corpus ctx : ℚ)) := by
  simp [predictDist, List.map_map, Function.comp]

theorem sum_predictDist (n : Nat) (corpus : Corpus) (ctx : List Word)
    (h : totalNext n corpus ctx ≠ 0) :
    ((predictDist n corpus ctx).map Prod.snd).sum = 1 := by
  rw [predictDist_map_snd]
  set l := nextWords n corpus ctx with hl
  have hT : totalNext n corpus ctx = l.length := rfl
  have hcount : ∀ w, countNext n corpus ctx w = l.count w := fun w => rfl
  have hsum :
      (l.dedup.map (fun w => (l.count w : ℚ) / (l.length : ℚ))).sum =
        ((l.length : ℚ)) / ((l.length : ℚ)) := by
    rw [← List.sum_toFinset _ l.nodup_dedup]
    have hfin : l.dedup.toFinset = l.toFinset := by
      ext a
      simp
    rw [hfin, ← Finset.sum_div, ← Nat.cast_sum, List.sum_toFinset_count_eq_length]
  have hlen : (l.length : ℚ) ≠ 0 := by
    rw [hT] at h
    exact_mod_cast h
  calc (l.dedup.map
          (fun w => (countNext n corpus ctx w : ℚ) / (totalNext n corpus ctx : ℚ))).sum
      = (l.dedup.map (fun w => (l.count w : ℚ) / (l.length : ℚ))).sum := by
        simp only [hcount, hT]
    _ = ((l.length : ℚ)) / ((l.length : ℚ)) := hsum
    _ = 1 := div_self hlen

/-- C1: for a context present in the table with at least one counted
successor, the Predictor assigns each observed next-word the probability
`count / Σ counts`; exactly the observed next-words appear; and the
probabilities sum to 1, hence to 1.0 within tolerance `1e-9`. -/
theorem predictor_distribution (n : Nat) (corpus : Corpus) (ctx : List Word)
    (h : totalNext n corpus ctx ≠ 0) :
    (∀ p ∈ predictDist n corpus ctx,
        p.2 = (countNext n corpus ctx p.1 : ℚ) / (totalNext n corpus ctx : ℚ)) ∧
    (∀ w : Word, w ∈ (predictDist n corpus ctx).map Prod.fst ↔
        0 < countNext n corpus ctx w) ∧
    ((predictDist n corpus ctx).map Prod.snd).sum = 1 ∧
    |((predictDist n corpus ctx).map Prod.snd).sum - 1| ≤ 1 / 1000000000 := by
  refine ⟨?_, ?_, sum_predictDist n corpus ctx h, ?_⟩
  · intro p hp
    rcases List.mem_map.mp hp with ⟨w, _, rfl⟩
    rfl
  · intro w
    constructor
    · intro hw
      rcases List.mem_map.mp hw with ⟨p, hp, rfl⟩
      rcases List.mem_map.mp hp with ⟨v, hv, rfl⟩
      have : v ∈ nextWords n corpus ctx := List.mem_dedup.mp hv
      exact List.count_pos_iff.mpr this
    · intro hw
      have : w ∈ nextWords n corpus ctx := List.count_pos_iff.mp hw
      refine List.mem_map.mpr ⟨(w, (countNext n corpus ctx w : ℚ) / (totalNext n corpus ctx : ℚ)), ?_, rfl⟩
      exact List.mem_map.mpr ⟨w, List.mem_dedup.mpr this, rfl⟩
  · rw [sum_predictDist n corpus ctx h]
    norm_num

/-- The spec's worked example corpus, at the word level. -/
def exCorpus : Corpus :=
  [["The", "cat", "sat", "on", "the", "mat."],
   ["The", "dog", "ran", "in", "the", "park."]]

theorem predictor_distribution_witness :
    totalNext 1 exCorpus ["The"] ≠ 0 ∧
    ((∀ p ∈ predictDist 1 exCorpus ["The"],
        p.2 = (countNext 1 exCorpus ["The"] p.1 : ℚ) / (totalNext 1 exCorpus ["The"] : ℚ)) ∧
    (∀ w : Word, w ∈ (predictDist 1 exCorpus ["The"]).map Prod.fst ↔
        0 < countNext 1 exCorpus ["The"] w) ∧
    ((predictDist 1 exCorpus ["The"]).map Prod.snd).sum = 1 ∧
    |((predictDist 1 exCorpus ["The"]).map Prod.snd).sum - 1| ≤ 1 / 1000000000) :=
  ⟨by decide, predictor_distribution 1 exCorpus ["The"] (by decide)⟩

/-! ## Greedy Completer -/

/-- True when the appended word ends with sentence-terminating punctuation
(the word's last character is `.`, `!` or `?`). -/
def sentenceEnd (w : Word) : Bool :=
  match w.data.getLast? with
  | some c => c = '.' || c = '!' || c = '?'
  | none => false

/-- The trailing `n`-word window of a word list. -/
def lastN (n : Nat) (l : List Word) : List Word := l.drop (l.length - n)

/-- The configured maximum completion length (spec §4.5: "e.g. 50 words"). -/
def MAX_COMPLETION_LENGTH : Nat := 50

/-- The next-word choice of greedy decoding: highest probability, ties broken
by the lexicographically smallest word. -/
def argmaxWord : List (Word × ℚ) → Option Word
  | [] => none
  | p :: ps =>
    some ((ps.foldl
      (fun best q =>
        if best.2 < q.2 ∨ (q.2 = best.2 ∧ q.1 < best.1) then q else best) p).1)

/-- Modelled from the spec: the Greedy Completer's loop (§4.5, backend
`main.py` not in the snapshot). `budget` counts the words still allowed to be
appended; `window` is the trailing `n`-word window; `visited` is the cycle
guard's set of windows already seen in this run. -/
def greedyGo (n : Nat) (corpus : Corpus) :
    Nat → List Word → List Word → List (List Word) → List Word
  | 0, acc, _, _ => acc
  | budget + 1, acc, window, visited =>
    match argmaxWord (predictDist n corpus window) with
    | none => acc
    | some w =>
      let acc' := acc ++ [w]
      let window' := lastN n (window ++ [w])
      if sentenceEnd w then acc'
      else if window' ∈ visited then acc'
      else greedyGo n corpus budget acc' window' (window' :: visited)

/-- Modelled from the spec: the Greedy Completer (§4.5, backend `main.py` not
in the snapshot): extend the starting context word by word until the
distribution is empty, the word ends a sentence, the maximum length is
reached, or the new window repeats. -/
def greedyComplete (n : Nat) (corpus : Corpus) (maxLen : Nat) (ctx : List Word) : List Word :=
  greedyGo n corpus maxLen ctx (lastN n ctx) [lastN n ctx]

/-- The completed sentence string for a context. -/
def completeSentence (n : Nat) (corpus : Corpus) (ctx : List Word) : String :=
  joinWords (greedyComplete n corpus MAX_COMPLETION_LENGTH ctx)

/-! ## C2: the Greedy Completer terminates within the configured length -/

theorem greedyGo_length (n : Nat) (corpus : Corpus) :
    ∀ (budget : Nat) (acc window : List Word) (visited : List (List Word)),
      ∃ t, greedyGo n corpus budget acc window visited = acc ++ t ∧ t.length ≤ budget := by
  intro budget
  induction budget with
  | zero => intro acc window visited; exact ⟨[], by simp [greedyGo]⟩
  | succ b ih =>
    intro acc window visited
    rw [greedyGo]
    cases hm : argmaxWord (predictDist n corpus window) with
    | none => exact ⟨[], by simp⟩
    | some w =>
      by_cases hend : sentenceEnd w
      · exact ⟨[w], by simp [hend]⟩
      · by_cases hvis : lastN n (window ++ [w]) ∈ visited
        · exact ⟨[w], by simp [hend, hvis]⟩
        · obtain ⟨t, ht, hlen⟩ :=
            ih (acc ++ [w]) (lastN n (window ++ [w])) (lastN n (window ++ [w]) :: visited)
          refine ⟨w :: t, ?_, by simpa using Nat.succ_le_succ hlen⟩
          simp [hend, hvis, ht]

/-- C2: for every corpus, order, starting context and configured maximum
length, the Greedy Completer terminates (it is a total function of its
inputs) and its output is the starting context followed by at most `maxLen`
generated words. -/
theorem greedyCompleter_bounded (n : Nat) (corpus : Corpus) (maxLen : Nat) (ctx : List Word) :
    ∃ t, greedyComplete n corpus maxLen ctx = ctx ++ t ∧ t.length ≤ maxLen :=
  greedyGo_length n corpus maxLen ctx (lastN n ctx) [lastN n ctx]

/-! ## C3: absent or malformed contexts -/

theorem mem_nextWords (n : Nat) (corpus : Corpus) (ctx : List Word) (w : Word)
    (hw : w ∈ nextWords n corpus ctx) :
    ∃ s ∈ corpus, ∃ i, windowAt s i n = ctx ∧ s[i + n]? = some w := by
  rcases List.mem_flatMap.mp hw with ⟨s, hs, hmem⟩
  rcases List.mem_filterMap.mp hmem with ⟨i, _, hi⟩
  by_cases hwin : windowAt s i n = ctx
  · exact ⟨s, hs, i, hwin, by simpa [hwin] using hi⟩
  · simp [hwin] at hi

theorem nextWords_eq_nil_of_length_ne (n : Nat) (corpus : Corpus) (ctx : List Word)
    (h : ctx.length ≠ n) : nextWords n corpus ctx = [] := by
  by_contra hne
  rcases List.exists_mem_of_ne_nil _ hne with ⟨w, hw⟩
  rcases mem_nextWords n corpus ctx w hw with ⟨s, _, i, hwin, hget⟩
  have hlt : i + n < s.length := (List.getElem?_eq_some_iff.mp hget).1
  have : ctx.length = n := by
    rw [← hwin]
    simp [windowAt]
    omega
  exact h this

theorem nextWords_eq_nil_of_vocab (n : Nat) (corpus : Corpus) (ctx : List Word)
    (h : ∃ w ∈ ctx, w ∉ corpus.flatten) : nextWords n corpus ctx = [] := by
  rcases h with ⟨w, hwctx, hwvoc⟩
  by_contra hne
  rcases List.exists_mem_of_ne_nil _ hne with ⟨v, hv⟩
  rcases mem_nextWords n corpus ctx v hv with ⟨s, hs, i, hwin, _⟩
  apply hwvoc
  apply List.mem_flatten.mpr ⟨s, hs, ?_⟩
  have : w ∈ windowAt s i n := hwin ▸ hwctx
  exact List.drop_subset i s (List.take_subset n _ this)

theorem predictDist_eq_nil (n : Nat) (corpus : Corpus) (ctx : List Word)
    (h : nextWords n corpus ctx = []) : predictDist n corpus ctx = [] := by
  simp [predictDist, h]

theorem greedyComplete_of_empty (n : Nat) (corpus : Corpus) (maxLen : Nat) (ctx : List Word)
    (h : predictDist n corpus (lastN n ctx) = []) :
    greedyComplete n corpus maxLen ctx = ctx := by
  cases maxLen with
  | zero => rfl
  | succ b => simp [greedyComplete, greedyGo, h, argmaxWord]

/-- C3 (amended): if a context is absent from the table, has no counted
successor, is not exactly `n` words, or uses a word outside the corpus's
vocabulary, the Predictor returns the empty distribution, not an error; and
the Greedy Completer returns the context's words alone whenever the
distribution of the context's trailing `n`-word window is empty (in
particular for every such context of at most `n` words). -/
theorem predictor_empty_cases (n : Nat) (corpus : Corpus) (maxLen : Nat) (ctx : List Word) :
    ((totalNext n corpus ctx = 0 ∨ ctx.length ≠ n ∨ ∃ w ∈ ctx, w ∉ corpus.flatten) →
      predictDist n corpus ctx = []) ∧
    (predictDist n corpus (lastN n ctx) = [] →
      greedyComplete n corpus maxLen ctx = ctx ∧
      joinWords (greedyComplete n corpus maxLen ctx) = joinWords ctx) := by
  constructor
  · intro h
    apply predictDist_eq_nil
    rcases h with h | h | h
    · exact List.length_eq_zero.mp h
    · exact nextWords_eq_nil_of_length_ne n corpus ctx h
    · exact nextWords_eq_nil_of_vocab n corpus ctx h
  · intro h
    have := greedyComplete_of_empty n corpus maxLen ctx h
    exact ⟨this, by rw [this]⟩

theorem predictor_empty_cases_witness :
    ((totalNext 1 exCorpus ["mat."] = 0 ∨ (["mat."] : List Word).length ≠ 1 ∨
        ∃ w ∈ (["mat."] : List Word), w ∉ exCorpus.flatten) ∧
      predictDist 1 exCorpus ["mat."] = []) ∧
    (predictDist 1 exCorpus (lastN 1 ["mat."]) = [] ∧
      greedyComplete 1 exCorpus MAX_COMPLETION_LENGTH ["mat."] = ["mat."] ∧
      joinWords (greedyComplete 1 exCorpus MAX_COMPLETION_LENGTH ["mat."]) = joinWords ["mat."]) :=
  ⟨⟨Or.inl (by decide),
    (predictor_empty_cases 1 exCorpus MAX_COMPLETION_LENGTH ["mat."]).1 (Or.inl (by decide))⟩,
   by decide,
   (predictor_empty_cases 1 exCorpus MAX_COMPLETION_LENGTH ["mat."]).2 (by decide)⟩

/-- The claim as stated: it also asserts that the Greedy Completer returns
the context alone for every context in the three degenerate classes. -/
def claimContextAloneAsStated : Prop :=
  ∀ (n : Nat) (corpus : Corpus) (ctx : List Word),
    (totalNext n corpus ctx = 0 ∨ ctx.length ≠ n ∨ ∃ w ∈ ctx, w ∉ corpus.flatten) →
    predictDist n corpus ctx = [] ∧
    greedyComplete n corpus MAX_COMPLETION_LENGTH ctx = ctx

/-- A single-sentence corpus used for the counterexample. -/
def exCorpus1 : Corpus := [["The", "cat", "sat", "on", "the", "mat."]]

/-- C3 counterexample: the two-word context `["cat", "sat"]` is not exactly
one word, so under order 1 it falls in the claim's degenerate class, yet the
Greedy Completer extends it to "cat sat on the mat." instead of returning it
alone. -/
theorem claimContextAlone_counterexample : ¬ claimContextAloneAsStated := by
  intro h
  have h2 := (h 1 exCorpus1 ["cat", "sat"] (Or.inr (Or.inl (by decide)))).2
  have h3 : greedyComplete 1 exCorpus1 MAX_COMPLETION_LENGTH ["cat", "sat"] ≠
      ["cat", "sat"] := by decide
  exact h3 h2

/-! ## Context Enumerator -/

/-- A displayable context option, as in the `ContextOption` interface of
`App.tsx`: the context's own words (highlighted in the UI) plus the words
that preceded its first occurrence. -/
structure ContextOption where
  context : List Word
  highlighted_words : List Word
  non_highlighted_words : List Word
deriving DecidableEq

/-- All full `n`-word windows of a sentence, left to right, including the
trailing window with no successor. -/
def windowsOf (n : Nat) (s : List Word) : List (List Word) :=
  (List.range (s.length + 1 - n)).map (fun i => windowAt s i n)

/-- All windows of the corpus in scan order: sentences in input order, then
positions left to right. -/
def allWindows (n : Nat) (corpus : Corpus) : List (List Word) :=
  corpus.flatMap (windowsOf n)

/-- Modelled from the spec: one candidate `ContextOption` per window position
of a sentence (§4.3, backend `main.py` not in the snapshot). -/
def sentenceOptions (n : Nat) (s : List Word) : List ContextOption :=
  (List.range (s.length + 1 - n)).map
    (fun i => ⟨windowAt s i n, windowAt s i n, s.take i⟩)

/-- All candidate options of the corpus in scan order, with duplicates. -/
def allOptions (n : Nat) (corpus : Corpus) : List ContextOption :=
  corpus.flatMap (sentenceOptions n)

/-- Keep only the first option for each distinct context, in scan order. -/
def dedupContexts : List ContextOption → List ContextOption
  | [] => []
  | o :: os => o :: dedupContexts (os.filter (fun p => p.context ≠ o.context))
termination_by l => l.length
decreasing_by
  exact Nat.lt_succ_of_le (List.length_filter_le _ os)

/-- Modelled from the spec: the Context Enumerator (§4.3, backend `main.py`
not in the snapshot): the distinct contexts of order `n`, in first-occurrence
order, each with the prefix of its first occurrence. -/
def enumerateContexts (n : Nat) (corpus : Corpus) : List ContextOption :=
  dedupContexts (allOptions n corpus)

/-- First-occurrence subsequence of a list: keep each value the first time
it appears, drop later repetitions. -/
def firstOccurrences {α : Type} [DecidableEq α] : List α → List α
  | [] => []
  | a :: as => a :: firstOccurrences (as.filter (fun b => b ≠ a))
termination_by l => l.length
decreasing_by
  exact Nat.lt_succ_of_le (List.length_filter_le _ as)

/-! ### Enumerator lemmas -/

theorem mem_firstOccurrences {α : Type} [DecidableEq α] (l : List α) (a : α) :
    a ∈ firstOccurrences l ↔ a ∈ l := by
  induction l using firstOccurrences.induct with
  | case1 => simp [firstOccurrences]
  | case2 b bs ih =>
    rw [firstOccurrences]
    by_cases hab : a = b
    · subst hab; simp
    · simp only [List.mem_cons, ih, List.mem_filter, decide_eq_true_eq]
      constructor
      · rintro (h | ⟨h, _⟩)
        · exact Or.inl h
        · exact Or.inr h
      · rintro (h | h)
        · exact Or.inl h
        · exact Or.inr ⟨h, hab⟩

theorem nodup_firstOccurrences {α : Type} [DecidableEq α] (l : List α) :
    (firstOccurrences l).Nodup := by
  induction l using firstOccurrences.induct with
  | case1 => simp [firstOccurrences]
  | case2 b bs ih =>
    rw [firstOccurrences]
    refine List.nodup_cons.mpr ⟨?_, ih⟩
    intro hmem
    have := (mem_firstOccurrences _ _).mp hmem
    rcases List.mem_filter.mp this with ⟨_, hne⟩
    simp at hne

theorem length_firstOccurrences {α : Type} [DecidableEq α] (l : List α) :
    (firstOccurrences l).length = l.dedup.length := by
  have h1 : (firstOccurrences l).toFinset = l.toFinset := by
    ext a
    simp [mem_firstOccurrences]
  calc (firstOccurrences l).length
      = (firstOccurrences l).toFinset.card :=
        (List.toFinset_card_of_nodup (nodup_firstOccurrences l)).symm
    _ = l.toFinset.card := by rw [h1]
    _ = l.dedup.length := by
        rw [← List.toFinset_card_of_nodup l.nodup_dedup]
        congr 1
        ext a
        simp

theorem map_context_filter (key : List Word) (os : List ContextOption) :
    (os.filter (fun p => p.context ≠ key)).map ContextOption.context =
      (os.map ContextOption.context).filter (fun c => c ≠ key) := by
  rw [List.filter_map]
  rfl

theorem map_context_dedupContexts (l : List ContextOption) :
    (dedupContexts l).map ContextOption.context =
      firstOccurrences (l.map ContextOption.context) := by
  induction l using dedupContexts.induct with
  | case1 => simp [dedupContexts, firstOccurrences]
  | case2 o os ih =>
    rw [dedupContexts]
    simp only [List.map_cons]
    rw [firstOccurrences]
    simp only [List.cons.injEq, true_and]
    rw [ih, map_context_filter]

theorem dedupContexts_eq_nil_iff (l : List ContextOption) :
    dedupContexts l = [] ↔ l = [] := by
  cases l with
  | nil => simp [dedupContexts]
  | cons o os => simp [dedupContexts]

theorem map_context_allOptions (n : Nat) (corpus : Corpus) :
    (allOptions n corpus).map ContextOption.context = allWindows n corpus := by
  simp only [allOptions, allWindows, List.map_flatMap]
  congr 1
  funext s
  simp [sentenceOptions, windowsOf, List.map_map, Function.comp]

theorem windowsOf_ne_nil_iff (n : Nat) (s : List Word) :
    windowsOf n s ≠ [] ↔ n ≤ s.length := by
  simp only [windowsOf, ne_eq, List.map_eq_nil_iff, List.range_eq_nil]
  omega

/-- C4: the Context Enumerator emits exactly one `ContextOption` per distinct
`n`-word window of the corpus (trailing windows included), in first-occurrence
scan order, with no duplicates; its length is the number of distinct windows;
and it is non-empty exactly when some sentence has at least `n` words. -/
theorem contextEnumerator_spec (n : Nat) (corpus : Corpus) :
    ((enumerateContexts n corpus).map ContextOption.context).Nodup ∧
    ((enumerateContexts n corpus).map ContextOption.context =
      firstOccurrences (allWindows n corpus)) ∧
    (∀ c, c ∈ (enumerateContexts n corpus).map ContextOption.context ↔
      c ∈ allWindows n corpus) ∧
    ((enumerateContexts n corpus).length = (allWindows n corpus).dedup.length) ∧
    (enumerateContexts n corpus ≠ [] ↔ ∃ s ∈ corpus, n ≤ s.length) := by
  have hmap : (enumerateContexts n corpus).map ContextOption.context =
      firstOccurrences (allWindows n corpus) := by
    rw [enumerateContexts, map_context_dedupContexts, map_context_allOptions]
  refine ⟨?_, hmap, ?_, ?_, ?_⟩
  · rw [hmap]; exact nodup_firstOccurrences _
  · intro c
    rw [hmap]
    exact mem_firstOccurrences _ c
  · have := congrArg List.length hmap
    simpa [length_firstOccurrences] using this
  · rw [ne_eq, ← List.map_eq_nil_iff (f := ContextOption.context), hmap]
    constructor
    · intro h
      rcases List.exists_mem_of_ne_nil _ h with ⟨c, hc⟩
      have hc2 := (mem_firstOccurrences _ c).mp hc
      rcases List.mem_flatMap.mp hc2 with ⟨s, hs, hcs⟩
      refine ⟨s, hs, ?_⟩
      apply (windowsOf_ne_nil_iff n s).mp
      exact List.ne_nil_of_mem hcs
    · rintro ⟨s, hs, hn⟩
      rcases List.exists_mem_of_ne_nil _ ((windowsOf_ne_nil_iff n s).mpr hn) with ⟨c, hc⟩
      have : c ∈ allWindows n corpus := List.mem_flatMap.mpr ⟨s, hs, hc⟩
      exact List.ne_nil_of_mem ((mem_firstOccurrences _ c).mpr this)

theorem contextEnumerator_spec_witness :
    ((enumerateContexts 1 exCorpus).map ContextOption.context).Nodup ∧
    (["The"] ∈ (enumerateContexts 1 exCorpus).map ContextOption.context ↔
      ["The"] ∈ allWindows 1 exCorpus) ∧
    (["The"] ∈ allWindows 1 exCorpus) ∧
    enumerateContexts 1 exCorpus ≠ [] :=
  ⟨(contextEnumerator_spec 1 exCorpus).1,
   (contextEnumerator_spec 1 exCorpus).2.2.1 ["The"],
   by decide,
   (contextEnumerator_spec 1 exCorpus).2.2.2.2.mpr
     ⟨["The", "cat", "sat", "on", "the", "mat."], by decide, by decide⟩⟩

/-! ## C5: the ranked probability view (`App.tsx`, `renderProbabilityTable`) -/

/-- One row of the probability table, as in the `ContextPrediction`
interface of `App.tsx`. -/
structure ContextPrediction where
  word : String
  probability : ℚ
deriving DecidableEq

/-- The ranked view's sort from `App.tsx`:
`predictions.sort((a, b) => b.probability - a.probability)`. JavaScript's
`Array.prototype.sort` is a stable sort that puts `a` before `b` when the
comparator is non-positive, i.e. when `b.probability ≤ a.probability`. -/
def sortPredictions (l : List ContextPrediction) : List ContextPrediction :=
  l.mergeSort (fun a b => decide (b.probability ≤ a.probability))

/-- The claim as stated: the ranked view is ordered by probability
descending, and among entries of equal probability the lexicographically
smaller word comes first. -/
def rankedViewClaim : Prop :=
  ∀ l : List ContextPrediction,
    (sortPredictions l).Pairwise
      (fun a b => b.probability ≤ a.probability ∧
        (a.probability = b.probability → a.word < b.word))

/-- The two equal-probability rows used to refute the lexicographic
tie-break. -/
def tieB : ContextPrediction := ⟨"b", 1/2⟩

def tieA : ContextPrediction := ⟨"a", 1/2⟩

/-- C5 counterexample: on the input `[("b", 0.5), ("a", 0.5)]` the code's
stable sort leaves the equal-probability rows in input order, so "b" is
ranked before the lexicographically smaller "a". -/
theorem rankedView_counterexample : ¬ rankedViewClaim := by
  intro h
  have hsorted : List.Pairwise
      (fun a b : ContextPrediction => decide (b.probability ≤ a.probability) = true)
      [tieB, tieA] := by
    simp [tieB, tieA]
  have h2 := h [tieB, tieA]
  rw [sortPredictions, List.mergeSort_of_sorted hsorted] at h2
  rcases (List.pairwise_cons.mp h2).1 tieA (by simp) with ⟨_, htie⟩
  have hlt : tieB.word < tieA.word := htie (by norm_num [tieB, tieA])
  have : ¬ (("b" : String) < "a") := by
    rw [String.lt_iff_toList_lt]
    decide
  exact this hlt

theorem sortPredictions_trans :
    ∀ a b c : ContextPrediction,
      decide (b.probability ≤ a.probability) = true →
      decide (c.probability ≤ b.probability) = true →
      decide (c.probability ≤ a.probability) = true := by
  intro a b c hab hbc
  exact decide_eq_true (le_trans (of_decide_eq_true hbc) (of_decide_eq_true hab))

theorem sortPredictions_total :
    ∀ a b : ContextPrediction,
      (decide (b.probability ≤ a.probability) ||
        decide (a.probability ≤ b.probability)) = true := by
  intro a b
  rcases le_total a.probability b.probability with h | h <;> simp [h]

/-- C5 (amended): the ranked view sorts the rows by probability descending
with a stable sort: the output is a permutation of the input, is ordered by
non-increasing probability, and two rows the first of which has at least the
probability of the second keep their relative order — in particular, rows of
equal probability stay in input order; no lexicographic tie-break is
applied. -/
theorem rankedView_sorted (l : List ContextPrediction) :
    List.Perm (sortPredictions l) l ∧
    (sortPredictions l).Pairwise
      (fun a b => b.probability ≤ a.probability) ∧
    (∀ a b : ContextPrediction, List.Sublist [a, b] l →
      b.probability ≤ a.probability →
      List.Sublist [a, b] (sortPredictions l)) := by
  refine ⟨List.mergeSort_perm l _, ?_, ?_⟩
  · have := List.sorted_mergeSort sortPredictions_trans sortPredictions_total l
    exact this.imp (fun h => of_decide_eq_true h)
  · intro a b hsub hle
    exact List.pair_sublist_mergeSort sortPredictions_trans sortPredictions_total
      (decide_eq_true hle) hsub

theorem rankedView_sorted_witness :
    List.Perm (sortPredictions [tieB, tieA]) [tieB, tieA] ∧
    List.Sublist [tieB, tieA] (sortPredictions [tieB, tieA]) :=
  ⟨(rankedView_sorted [tieB, tieA]).1,
   (rankedView_sorted [tieB, tieA]).2.2 tieB tieA (List.Sublist.refl _)
     (by norm_num [tieB, tieA])⟩

/-! ## C6: the request boundary (`App.tsx`, `handleSubmit` /
`fetchContextOptions`): `input.split('\n').filter(s => s.trim())` -/

/-- Split on the newline character, as JavaScript's `input.split('\n')`:
every line, including empty ones. -/
def splitLinesAux : List Char → List Char → List String
  | [], acc => [String.mk acc.reverse]
  | c :: cs, acc =>
    if c = '\n' then String.mk acc.reverse :: splitLinesAux cs []
    else splitLinesAux cs (c :: acc)

def splitLines (input : String) : List String := splitLinesAux input.data []

/-- A line is blank when `s.trim()` is empty, i.e. every character is
whitespace; `filter(s => s.trim())` keeps exactly the non-blank lines. -/
def isBlank (s : String) : Bool := s.data.all (fun c => c.isWhitespace)

/-- The sentence list a request carries:
`input.split('\n').filter(s => s.trim())`. -/
def submittedSentences (input : String) : List String :=
  (splitLines input).filter (fun s => !isBlank s)

/-- The submit handler's boundary check: reject when no non-blank line
remains (`throw new Error('Please enter at least one sentence')`),
otherwise pass the filtered list on to the model. -/
def handleSubmit (input : String) : Except String (List String) :=
  let sentences := submittedSentences input
  if sentences.isEmpty then Except.error "Please enter at least one sentence"
  else Except.ok sentences

/-- C6: the boundary discards every blank or whitespace-only line before the
model sees the list; when nothing remains it rejects the request with the
user-facing message instead of building a model; and otherwise it forwards
exactly the non-blank lines. -/
theorem submitBoundary_spec (input : String) :
    (∀ s ∈ submittedSentences input, isBlank s = false) ∧
    (handleSubmit input = Except.error "Please enter at least one sentence" ↔
      ∀ l ∈ splitLines input, isBlank l = true) ∧
    (submittedSentences input ≠ [] →
      handleSubmit input = Except.ok (submittedSentences input)) := by
  refine ⟨?_, ?_, ?_⟩
  · intro s hs
    have := (List.mem_filter.mp hs).2
    simpa using this
  · constructor
    · intro h
      rw [handleSubmit] at h
      by_cases he : (submittedSentences input).isEmpty
      · intro l hl
        have : (splitLines input).filter (fun s => !isBlank s) = [] :=
          List.isEmpty_iff.mp he
        have h2 := List.filter_eq_nil_iff.mp this l hl
        simpa using h2
      · simp [he] at h
    · intro h
      have : submittedSentences input = [] := by
        rw [submittedSentences]
        apply List.filter_eq_nil_iff.mpr
        intro l hl
        simp [h l hl]
      rw [handleSubmit, this]
      rfl
  · intro h
    rw [handleSubmit, if_neg]
    simpa using h

theorem submitBoundary_spec_witness :
    (isBlank "The cat." = false) ∧
    (submittedSentences "The cat.\n \nThe dog." = ["The cat.", "The dog."]) ∧
    (handleSubmit "The cat.\n \nThe dog." =
      Except.ok ["The cat.", "The dog."]) ∧
    (handleSubmit " \n\t" = Except.error "Please enter at least one sentence") :=
  ⟨(submitBoundary_spec "The cat.\n \nThe dog.").1 "The cat." (by decide),
   by decide,
   by
     have h1 : submittedSentences "The cat.\n \nThe dog." = ["The cat.", "The dog."] := by
       decide
     have h2 := (submitBoundary_spec "The cat.\n \nThe dog.").2.2 (by decide)
     rw [h2, h1],
   (submitBoundary_spec " \n\t").2.1.mpr (by decide)⟩

/-! ## The full-process response (interfaces from `App.tsx`) -/

/-- The `TokenizedSentence` interface of `App.tsx`: the original sentence and
the external tokenizer's token strings and integer ids, order-preserving. -/
structure TokenizedSentence where
  original : String
  tokens : List String
  token_ids : List Nat
deriving DecidableEq

/-- The `PredictionResult` interface of `App.tsx`: a context, its next-word
distribution and its greedy completion. -/
structure PredictionResult where
  context : String
  probabilities : List (String × ℚ)
  completed_sentence : String
deriving DecidableEq

/-- The `ProcessResponse` interface of `App.tsx`. -/
structure ProcessResponse where
  tokenized_sentences : List TokenizedSentence
  one_word_predictions : List PredictionResult
  two_word_predictions : List PredictionResult
  three_word_predictions : List PredictionResult
  four_word_predictions : List PredictionResult
deriving DecidableEq

/-- One `PredictionResult` per enumerated context of order `n`. -/
def predictionsFor (n : Nat) (corpus : Corpus) : List PredictionResult :=
  (enumerateContexts n corpus).map
    (fun o => ⟨joinWords o.context, predictDist n corpus o.context,
      completeSentence n corpus o.context⟩)

/-- Modelled from the spec: the `/process` handler (§6, backend `main.py` not
in the snapshot): tokenize every sentence with the external tokenizer
collaborator `tokenize`, build the corpus fresh, and answer with one
`PredictionResult` per distinct context for each order 1–4. -/
def fullProcess (tokenize : String → List (String × Nat))
    (sentences : List String) : ProcessResponse :=
  let corpus := sentences.map splitWords
  { tokenized_sentences := sentences.map
      (fun s => ⟨s, (tokenize s).map Prod.fst, (tokenize s).map Prod.snd⟩)
    one_word_predictions := predictionsFor 1 corpus
    two_word_predictions := predictionsFor 2 corpus
    three_word_predictions := predictionsFor 3 corpus
    four_word_predictions := predictionsFor 4 corpus }

/-! ## C8: shape of the full-process response -/

/-- The view of one `PredictionResult` as (context, distribution,
completion). -/
def predView (p : PredictionResult) : String × List (String × ℚ) × String :=
  (p.context, p.probabilities, p.completed_sentence)

theorem predictionsFor_view (n : Nat) (corpus : Corpus) :
    (predictionsFor n corpus).map predView =
      (enumerateContexts n corpus).map
        (fun o => (joinWords o.context, predictDist n corpus o.context,
          completeSentence n corpus o.context)) := by
  simp [predictionsFor, List.map_map, Function.comp, predView]

/-- C8: the full-process response lists the tokenization view of every
sentence in order (original text, token strings, token ids), and, for each
order `n` of 1–4, exactly one `PredictionResult` per distinct context of that
order — in enumeration order, each carrying that context's distribution and
greedy completion. -/
theorem fullProcess_spec (tokenize : String → List (String × Nat))
    (sentences : List String) :
    ((fullProcess tokenize sentences).tokenized_sentences.map
        TokenizedSentence.original = sentences) ∧
    ((fullProcess tokenize sentences).tokenized_sentences.map
        TokenizedSentence.tokens =
      sentences.map (fun s => (tokenize s).map Prod.fst)) ∧
    ((fullProcess tokenize sentences).tokenized_sentences.map
        TokenizedSentence.token_ids =
      sentences.map (fun s => (tokenize s).map Prod.snd)) ∧
    ((fullProcess tokenize sentences).one_word_predictions.map predView =
      (enumerateContexts 1 (sentences.map splitWords)).map
        (fun o => (joinWords o.context,
          predictDist 1 (sentences.map splitWords) o.context,
          completeSentence 1 (sentences.map splitWords) o.context))) ∧
    ((fullProcess tokenize sentences).two_word_predictions.map predView =
      (enumerateContexts 2 (sentences.map splitWords)).map
        (fun o => (joinWords o.context,
          predictDist 2 (sentences.map splitWords) o.context,
          completeSentence 2 (sentences.map splitWords) o.context))) ∧
    ((fullProcess tokenize sentences).three_word_predictions.map predView =
      (enumerateContexts 3 (sentences.map splitWords)).map
        (fun o => (joinWords o.context,
          predictDist 3 (sentences.map splitWords) o.context,
          completeSentence 3 (sentences.map splitWords) o.context))) ∧
    ((fullProcess tokenize sentences).four_word_predictions.map predView =
      (enumerateContexts 4 (sentences.map splitWords)).map
        (fun o => (joinWords o.context,
          predictDist 4 (sentences.map splitWords) o.context,
          completeSentence 4 (sentences.map splitWords) o.context))) := by
  refine ⟨?_, ?_, ?_, ?_, ?_, ?_, ?_⟩ <;>
    simp [fullProcess, predictionsFor_view, List.map_map, Function.comp_def]

/-! ## C7: the pipeline is a pure function of the sentence list -/

/-- Modelled from the spec: the only process-wide state is stateless
configuration (§3, §5); a server-state record threaded through the handler
to express that responses do not depend on it. -/
structure ServerState where
  lastResponse : Option ProcessResponse
deriving DecidableEq

/-- Modelled from the spec: the request handler rebuilds the model from the
supplied sentence list on every call (§6 "Persisted state: none"); the
incoming state is never read. -/
def handleProcess (tokenize : String → List (String × Nat))
    (_st : ServerState) (sentences : List String) :
    ProcessResponse × ServerState :=
  let r := fullProcess tokenize sentences
  (r, ⟨some r⟩)

/-- C7: the build-and-query pipeline is a pure function of the sentence
list: the response is the same whatever server state the request meets, and
running the pipeline twice in a row on the same sentence list (threading the
state of the first run into the second) yields identical responses, tables,
enumerations, distributions and completions included. -/
theorem pipeline_pure (tokenize : String → List (String × Nat))
    (st₁ st₂ : ServerState) (sentences : List String) :
    ((handleProcess tokenize st₁ sentences).1 =
      (handleProcess tokenize st₂ sentences).1) ∧
    ((handleProcess tokenize
        (handleProcess tokenize st₁ sentences).2 sentences).1 =
      (handleProcess tokenize st₁ sentences).1) ∧
    ((handleProcess tokenize st₁ sentences).1 = fullProcess tokenize sentences) :=
  ⟨rfl, rfl, rfl⟩

/-! ## C9: caller-side retry and timeout (`App.tsx`, `fetchWithRetry` /
`fetchWithTimeout`) -/

def MAX_RETRIES : Nat := 3

def RETRY_DELAY : Nat := 1000

/-- The default per-attempt timeout of `fetchWithTimeout`, in
milliseconds. -/
def TIMEOUT_MS : Nat := 30000

/-- What one underlying `fetch` attempt can come back with: a successful
response, a non-ok HTTP response (with an optional error `detail` body), an
abort fired by the timeout timer, a thrown `Error`, or a thrown non-`Error`
value. -/
inductive FetchOutcome (R : Type) where
  | success (r : R)
  | httpFailure (status : Nat) (detail : Option String)
  | aborted
  | failure (msg : String)
  | nonError

/-- The wrapper `fetchWithTimeout` from `App.tsx`: an ok response is returned; a non-ok
response raises the body's `detail` or an HTTP-status message; an
`AbortError` (the timeout) is reported as a timeout error instead of
hanging; other errors are re-thrown; non-`Error` values become a generic
message. -/
def fetchWithTimeout {R : Type} : FetchOutcome R → Except String R
  | FetchOutcome.success r => Except.ok r
  | FetchOutcome.httpFailure status detail =>
      Except.error (detail.getD ("HTTP error! status: " ++ toString status))
  | FetchOutcome.aborted => Except.error "Request timed out. Please try again."
  | FetchOutcome.failure msg => Except.error msg
  | FetchOutcome.nonError => Except.error "An unexpected error occurred"

/-- The observable behaviour of a `fetchWithRetry` call: the value returned
or error thrown, how many attempts ran, and the sleeps (in ms) between
consecutive attempts, in order. -/
structure RetryTrace (R : Type) where
  result : Except String R
  attemptsMade : Nat
  delays : List Nat

/-- The loop of `fetchWithRetry` from `App.tsx`: attempt `i` (0-based) with
`remaining` loop iterations left; on failure the last iteration re-throws,
earlier ones sleep `RETRY_DELAY * (i + 1)` and continue; an exhausted loop
falls through to `throw new Error('Max retries reached')`. -/
def fetchWithRetryGo {R : Type} (attempt : Nat → FetchOutcome R) :
    Nat → Nat → RetryTrace R
  | 0, i => ⟨Except.error "Max retries reached", i, []⟩
  | remaining + 1, i =>
    match fetchWithTimeout (attempt i) with
    | Except.ok r => ⟨Except.ok r, i + 1, []⟩
    | Except.error e =>
      if remaining = 0 then ⟨Except.error e, i + 1, []⟩
      else
        let t := fetchWithRetryGo attempt remaining (i + 1)
        ⟨t.result, t.attemptsMade, RETRY_DELAY * (i + 1) :: t.delays⟩

/-- The retry wrapper `fetchWithRetry` from `App.tsx`, with the attempts'
outcomes supplied by the oracle `attempt`. -/
def fetchWithRetry {R : Type} (attempt : Nat → FetchOutcome R)
    (retries : Nat) : RetryTrace R :=
  fetchWithRetryGo attempt retries 0

/-- C9: with the default `retries = MAX_RETRIES = 3`, `fetchWithRetry` makes
at most 3 attempts; it sleeps `RETRY_DELAY * k` after the `k`-th failed
attempt, so the delays between consecutive attempts are exactly
`RETRY_DELAY * 1, …`; it returns the first successful response, having made
just the attempts up to it; if every attempt fails it propagates the final
attempt's error; and an attempt aborted by the 30000 ms timer surfaces the
timeout message instead of hanging. -/
theorem fetchWithRetry_spec {R : Type} (attempt : Nat → FetchOutcome R) :
    ((fetchWithRetry attempt MAX_RETRIES).attemptsMade ≤ MAX_RETRIES) ∧
    ((fetchWithRetry attempt MAX_RETRIES).delays =
      (List.range ((fetchWithRetry attempt MAX_RETRIES).attemptsMade - 1)).map
        (fun k => RETRY_DELAY * (k + 1))) ∧
    (∀ (j : Nat) (r : R), j < MAX_RETRIES →
      (∀ k, k < j → ∃ e, fetchWithTimeout (attempt k) = Except.error e) →
      fetchWithTimeout (attempt j) = Except.ok r →
      (fetchWithRetry attempt MAX_RETRIES).result = Except.ok r ∧
      (fetchWithRetry attempt MAX_RETRIES).attemptsMade = j + 1) ∧
    ((∀ k, k < MAX_RETRIES → ∃ e, fetchWithTimeout (attempt k) = Except.error e) →
      (fetchWithRetry attempt MAX_RETRIES).result =
        fetchWithTimeout (attempt (MAX_RETRIES - 1))) ∧
    (fetchWithTimeout (FetchOutcome.aborted : FetchOutcome R) =
      Except.error "Request timed out. Please try again." ∧
      TIMEOUT_MS = 30000) := by
  refine ⟨?_, ?_, ?_, ?_, rfl, rfl⟩
  · rcases h0 : fetchWithTimeout (attempt 0) with e0 | r0 <;>
      rcases h1 : fetchWithTimeout (attempt 1) with e1 | r1 <;>
        rcases h2 : fetchWithTimeout (attempt 2) with e2 | r2 <;>
          simp [fetchWithRetry, fetchWithRetryGo, MAX_RETRIES, h0, h1, h2]
  · rcases h0 : fetchWithTimeout (attempt 0) with e0 | r0 <;>
      rcases h1 : fetchWithTimeout (attempt 1) with e1 | r1 <;>
        rcases h2 : fetchWithTimeout (attempt 2) with e2 | r2 <;>
          simp [fetchWithRetry, fetchWithRetryGo, MAX_RETRIES, RETRY_DELAY,
            h0, h1, h2, List.range_succ]
  · intro j r hj hprev hjok
    have hj3 : j < 3 := hj
    interval_cases j
    · constructor
      · simp [fetchWithRetry, fetchWithRetryGo, MAX_RETRIES, hjok]
      · simp [fetchWithRetry, fetchWithRetryGo, MAX_RETRIES, hjok]
    · rcases hprev 0 (by omega) with ⟨ea, hea⟩
      constructor
      · simp [fetchWithRetry, fetchWithRetryGo, MAX_RETRIES, hea, hjok]
      · simp [fetchWithRetry, fetchWithRetryGo, MAX_RETRIES, hea, hjok]
    · rcases hprev 0 (by omega) with ⟨ea, hea⟩
      rcases hprev 1 (by omega) with ⟨eb, heb⟩
      constructor
      · simp [fetchWithRetry, fetchWithRetryGo, MAX_RETRIES, hea, heb, hjok]
      · simp [fetchWithRetry, fetchWithRetryGo, MAX_RETRIES, hea, heb, hjok]
  · intro hall
    rcases hall 0 (by norm_num [MAX_RETRIES]) with ⟨ea, hea⟩
    rcases hall 1 (by norm_num [MAX_RETRIES]) with ⟨eb, heb⟩
    rcases hall 2 (by norm_num [MAX_RETRIES]) with ⟨ec, hec⟩
    simp [fetchWithRetry, fetchWithRetryGo, MAX_RETRIES, hea, heb, hec]

/-- A run whose first attempt times out and whose second attempt succeeds. -/
def attOkSecond : Nat → FetchOutcome Nat := fun k =>
  if k = 1 then FetchOutcome.success 42 else FetchOutcome.aborted

/-- A run whose every attempt is a non-ok HTTP response. -/
def attAllFail : Nat → FetchOutcome Nat := fun k =>
  FetchOutcome.httpFailure (500 + k) none

theorem fetchWithRetry_spec_witness :
    ((fetchWithRetry attOkSecond MAX_RETRIES).result = Except.ok 42 ∧
      (fetchWithRetry attOkSecond MAX_RETRIES).attemptsMade = 2) ∧
    ((fetchWithRetry attAllFail MAX_RETRIES).result =
      fetchWithTimeout (attAllFail (MAX_RETRIES - 1))) :=
  ⟨(fetchWithRetry_spec attOkSecond).2.2.1 1 42 (by norm_num [MAX_RETRIES])
      (fun k hk => by
        interval_cases k
        exact ⟨"Request timed out. Please try again.", rfl⟩)
      rfl,
   (fetchWithRetry_spec attAllFail).2.2.2.1
      (fun k _hk => ⟨"HTTP error! status: " ++ toString (500 + k), rfl⟩)⟩

/-! ## C10: token colour assignment (`App.tsx`, `getTokenColor` /
`tokenColors`) -/

/-- The ten pastel colour schemes of `App.tsx`. -/
def colorSchemes : List String :=
  ["rgba(255, 250, 160, 0.3)",
   "rgba(173, 216, 255, 0.3)",
   "rgba(144, 238, 144, 0.3)",
   "rgba(255, 200, 180, 0.3)",
   "rgba(230, 190, 255, 0.3)",
   "rgba(175, 238, 238, 0.3)",
   "rgba(255, 182, 193, 0.3)",
   "rgba(250, 250, 210, 0.3)",
   "rgba(240, 255, 240, 0.3)",
   "rgba(255, 228, 225, 0.3)"]

/-- The colour assignment `getTokenColor` from `App.tsx`: the `tokenColors` map (a JavaScript
`Map`, i.e. an insertion-ordered association list keyed by the exact token,
case preserved) is consulted; an unseen token is assigned
`colorSchemes[tokenColors.size % colorSchemes.length]` and recorded. -/
def getTokenColor (token : String) (tokenColors : List (String × String)) :
    String × List (String × String) :=
  match tokenColors.lookup token with
  | some c => (c, tokenColors)
  | none =>
    let nextColor := colorSchemes.getD (tokenColors.length % colorSchemes.length) ""
    (nextColor, tokenColors ++ [(token, nextColor)])

/-- The `tokenColors` map accumulated by rendering a token stream, starting
from the empty map. -/
def processTokens (tokens : List String) : List (String × String) :=
  tokens.foldl (fun st t => (getTokenColor t st).2) []

/-- The invariant of the colour map: keys are distinct, and the entry at
position `i` holds colour `colorSchemes[i % colorSchemes.length]`. -/
def ColorInv (st : List (String × String)) : Prop :=
  (st.map Prod.fst).Nodup ∧
  ∀ i p, st[i]? = some p → p.2 = colorSchemes.getD (i % colorSchemes.length) ""

theorem notMem_keys_of_lookup_none {st : List (String × String)} {t : String}
    (h : st.lookup t = none) : t ∉ st.map Prod.fst := by
  intro hmem
  rcases List.mem_map.mp hmem with ⟨p, hp, hfst⟩
  have := List.lookup_eq_none_iff.mp h p hp
  rw [hfst] at this
  simp at this

theorem lookup_none_of_notMem_keys {st : List (String × String)} {t : String}
    (h : t ∉ st.map Prod.fst) : st.lookup t = none := by
  apply List.lookup_eq_none_iff.mpr
  intro p hp
  simp only [bne_iff_ne, ne_eq]
  intro heq
  exact h (List.mem_map.mpr ⟨p, hp, heq.symm⟩)

theorem colorInv_step (t : String) (st : List (String × String))
    (h : ColorInv st) : ColorInv (getTokenColor t st).2 := by
  rcases h with ⟨hnodup, hcolors⟩
  cases hl : st.lookup t with
  | some c => simpa [getTokenColor, hl] using ⟨hnodup, hcolors⟩
  | none =>
    have hnew : t ∉ st.map Prod.fst := notMem_keys_of_lookup_none hl
    have hst : (getTokenColor t st).2 =
        st ++ [(t, colorSchemes.getD (st.length % colorSchemes.length) "")] := by
      simp [getTokenColor, hl]
    rw [hst]
    constructor
    · simp only [List.map_append, List.map_cons, List.map_nil]
      rw [List.nodup_append]
      exact ⟨hnodup, List.nodup_singleton t, by simpa using hnew⟩
    · intro i p hp
      by_cases hlt : i < st.length
      · rw [List.getElem?_append_left hlt] at hp
        exact hcolors i p hp
      · have hle : st.length ≤ i := Nat.le_of_not_lt hlt
        rw [List.getElem?_append_right hle] at hp
        have hieq : i = st.length := by
          rcases Nat.lt_or_ge (i - st.length) 1 with h1 | h1
          · omega
          · rw [List.getElem?_eq_none (by simpa using h1)] at hp
            cases hp
        rw [hieq] at hp ⊢
        simp only [Nat.sub_self] at hp
        simp only [List.getElem?_cons_zero, Option.some.injEq] at hp
        rw [← hp]

theorem colorInv_foldl :
    ∀ (ts : List String) (st : List (String × String)), ColorInv st →
      ColorInv (ts.foldl (fun st t => (getTokenColor t st).2) st) := by
  intro ts
  induction ts with
  | nil => intro st h; exact h
  | cons t ts ih =>
    intro st h
    exact ih _ (colorInv_step t st h)

theorem colorInv_processTokens (ts : List String) : ColorInv (processTokens ts) :=
  colorInv_foldl ts [] ⟨List.nodup_nil, fun i p hp => by simp at hp⟩

/-- The tokens of a stream not yet in the `seen` key set. -/
def newTokens (seen : List String) (ts : List String) : List String :=
  ts.filter (fun t => !(decide (t ∈ seen)))

theorem keys_foldl :
    ∀ (ts : List String) (st : List (String × String)),
      ((ts.foldl (fun st t => (getTokenColor t st).2) st).map Prod.fst) =
        st.map Prod.fst ++ firstOccurrences (newTokens (st.map Prod.fst) ts) := by
  intro ts
  induction ts with
  | nil =>
    intro st
    simp [newTokens, firstOccurrences]
  | cons t ts ih =>
    intro st
    by_cases hmem : t ∈ st.map Prod.fst
    · have hl : ∃ c, st.lookup t = some c := by
        cases hcase : st.lookup t with
        | none => exact absurd (notMem_keys_of_lookup_none hcase) (by simp [hmem])
        | some c => exact ⟨c, rfl⟩
      rcases hl with ⟨c, hc⟩
      have hstep : (getTokenColor t st).2 = st := by simp [getTokenColor, hc]
      have hnew : newTokens (st.map Prod.fst) (t :: ts) =
          newTokens (st.map Prod.fst) ts := by
        simp [newTokens, List.filter_cons, hmem]
      calc ((List.foldl (fun st t => (getTokenColor t st).2) st (t :: ts)).map Prod.fst)
          = ((List.foldl (fun st t => (getTokenColor t st).2)
              ((getTokenColor t st).2) ts).map Prod.fst) := rfl
        _ = ((List.foldl (fun st t => (getTokenColor t st).2) st ts).map Prod.fst) := by
            rw [hstep]
        _ = st.map Prod.fst ++ firstOccurrences (newTokens (st.map Prod.fst) ts) :=
            ih st
        _ = st.map Prod.fst ++
              firstOccurrences (newTokens (st.map Prod.fst) (t :: ts)) := by
            rw [hnew]
    · have hc : st.lookup t = none := lookup_none_of_notMem_keys hmem
      have hstep : (getTokenColor t st).2 =
          st ++ [(t, colorSchemes.getD (st.length % colorSchemes.length) "")] := by
        simp [getTokenColor, hc]
      have hkeys : ((getTokenColor t st).2).map Prod.fst = st.map Prod.fst ++ [t] := by
        rw [hstep]; simp
      have hfilter : newTokens (st.map Prod.fst ++ [t]) ts =
          (newTokens (st.map Prod.fst) ts).filter (fun b => decide (b ≠ t)) := by
        simp only [newTokens, List.filter_filter]
        apply List.filter_congr
        intro a _
        by_cases hat : a = t
        · simp [hat]
        · by_cases has : a ∈ st.map Prod.fst <;> simp [hat, has]
      calc ((List.foldl (fun st t => (getTokenColor t st).2) st (t :: ts)).map Prod.fst)
          = ((List.foldl (fun st t => (getTokenColor t st).2)
              ((getTokenColor t st).2) ts).map Prod.fst) := rfl
        _ = ((getTokenColor t st).2).map Prod.fst ++
              firstOccurrences (newTokens (((getTokenColor t st).2).map Prod.fst) ts) :=
            ih _
        _ = (st.map Prod.fst ++ [t]) ++
              firstOccurrences (newTokens (st.map Prod.fst ++ [t]) ts) := by
            rw [hkeys]
        _ = (st.map Prod.fst ++ [t]) ++
              firstOccurrences
                ((newTokens (st.map Prod.fst) ts).filter (fun b => decide (b ≠ t))) := by
            rw [hfilter]
        _ = st.map Prod.fst ++
              firstOccurrences (newTokens (st.map Prod.fst) (t :: ts)) := by
            have : newTokens (st.map Prod.fst) (t :: ts) =
                t :: newTokens (st.map Prod.fst) ts := by
              simp [newTokens, List.filter_cons, hmem]
            rw [this, firstOccurrences]
            simp

theorem keys_processTokens (ts : List String) :
    (processTokens ts).map Prod.fst = firstOccurrences ts := by
  have h := keys_foldl ts []
  simp only [List.map_nil, List.nil_append] at h
  rw [processTokens, h]
  congr 1
  simp [newTokens]

theorem colorSchemes_injOn :
    ∀ a ∈ List.range colorSchemes.length, ∀ b ∈ List.range colorSchemes.length,
      colorSchemes.getD a "" = colorSchemes.getD b "" → a = b := by
  decide

/-- C10: rendering any token stream from an empty colour map, every distinct
token (case-sensitive) is assigned a colour exactly once — the keys of the
accumulated map are the distinct tokens in first-seen order, with no
duplicates; the `k`-th distinct token receives
`colorSchemes[k % colorSchemes.length]`; a later call for an
already-assigned token returns the stored colour and leaves the map
unchanged; and two entries carry the same colour only if their first-seen
indices are congruent modulo `colorSchemes.length = 10`. -/
theorem getTokenColor_spec (ts : List String) :
    ((processTokens ts).map Prod.fst).Nodup ∧
    ((processTokens ts).map Prod.fst = firstOccurrences ts) ∧
    (∀ i p, (processTokens ts)[i]? = some p →
      p.2 = colorSchemes.getD (i % colorSchemes.length) "") ∧
    (∀ t c, (processTokens ts).lookup t = some c →
      getTokenColor t (processTokens ts) = (c, processTokens ts)) ∧
    (∀ i j p q, (processTokens ts)[i]? = some p → (processTokens ts)[j]? = some q →
      p.2 = q.2 → i % colorSchemes.length = j % colorSchemes.length) ∧
    colorSchemes.length = 10 := by
  obtain ⟨hnodup, hcolors⟩ := colorInv_processTokens ts
  refine ⟨hnodup, keys_processTokens ts, hcolors, ?_, ?_, rfl⟩
  · intro t c h
    simp [getTokenColor, h]
  · intro i j p q hp hq heq
    have h1 := hcolors i p hp
    have h2 := hcolors j q hq
    rw [h1, h2] at heq
    apply colorSchemes_injOn
    · exact List.mem_range.mpr (Nat.mod_lt _ (by norm_num [colorSchemes]))
    · exact List.mem_range.mpr (Nat.mod_lt _ (by norm_num [colorSchemes]))
    · exact heq

theorem getTokenColor_spec_witness :
    ((processTokens ["cat", "dog", "cat"]).map Prod.fst).Nodup ∧
    ((processTokens ["cat", "dog", "cat"]).map Prod.fst = ["cat", "dog"]) ∧
    (getTokenColor "cat" (processTokens ["cat", "dog", "cat"]) =
      ("rgba(255, 250, 160, 0.3)", processTokens ["cat", "dog", "cat"])) :=
  ⟨(getTokenColor_spec ["cat", "dog", "cat"]).1,
   by decide,
   (getTokenColor_spec ["cat", "dog", "cat"]).2.2.2.1 "cat"
     "rgba(255, 250, 160, 0.3)" (by decide)⟩

end LlmDemo
